import Mathlib

/-!
Verification of the hydralisk execution scheduler (hydralisk.py).

The development shallowly embeds the orchestration logic of the
repository: the per-wallet call protocol `execute_contract_call`, the
pacing scheduler `distribute_calls`, the completion-log query
`get_finished_wallets` and the wallet-selection pipeline of
`init_hydralisk`.  External effects (the `eth` CLI subprocess calls, the
random draws, the clock) are modelled as explicit oracle parameters;
Python falsy values (`None`, empty string, zero) are modelled by the
empty string / zero of the corresponding type.
-/

namespace Hydralisk

/-- A wallet as returned by `get_wallets`: name, address and private key.
An empty string models a missing or falsy field of the Python dict. -/
structure Wallet where
  name : String
  address : String
  pk : String
deriving DecidableEq

/-- The execution-configuration dictionary handed to
`execute_contract_call` and `distribute_calls`.  An empty string or a
zero models a missing or falsy entry of the Python dict. -/
structure ExecConfig where
  campaign_name : String
  chainSlug : String
  gas : Nat
  gas_price : Nat
  master_pk : String
  abi_name : String
  contract_address : String
  method : String
  log_path : String
deriving DecidableEq

/-- Oracle for the external effects seen by one `execute_contract_call`
task: the balance reported by the CLI for the wallet, the results of the
two transaction-sending CLI calls (`none` models the falsy value the
wrapper returns on failure), the task's random draws
(`str(uuid.uuid4())` and `random.randint(0, 10000)`), and the
timestamp. -/
structure ExecEnv where
  balance : Rat
  fundTx : Option String
  callTx : Option String
  uuidVal : String
  rndVal : Nat
  ts : String
deriving DecidableEq

/-- How one `execute_contract_call` task ends. -/
inductive ExecOutcome where
  /-- an uncaught `ValueError` (or similar) escapes the coroutine -/
  | raised (msg : String)
  /-- the bare `return` after the master-wallet guard (line 571) -/
  | skippedMaster
  /-- `return False` after a failed funding transfer (line 603) -/
  | fundingFailed
  /-- `return False` after a failed contract call (line 623) -/
  | callFailed
  /-- fell through to the final log write (lines 626-637) -/
  | success
deriving DecidableEq

/-- The observable behaviour of one `execute_contract_call` task: its
outcome together with which effects it performed on the way. -/
structure ExecTrace where
  outcome : ExecOutcome
  balanceChecked : Bool
  fundingAttempted : Bool
  fundingAmount : Option Nat
  callAttempted : Bool
  methodSent : Option String
  logLine : Option String
deriving DecidableEq

/-- Python `str.replace` for a non-empty pattern: replace every
non-overlapping occurrence of `pat` in `s` by `rep`, scanning left to
right.  (An empty `pat` never matches here; both patterns used below are
non-empty literals.) -/
def replaceAll (s pat rep : List Char) : List Char :=
  match s with
  | [] => []
  | c :: cs =>
    if pat ≠ [] ∧ pat <+: (c :: cs) then
      rep ++ replaceAll ((c :: cs).drop pat.length) pat rep
    else
      c :: replaceAll cs pat rep
termination_by s.length
decreasing_by
  · rename_i h
    have hp : 0 < pat.length := List.length_pos.mpr h.1
    simp only [List.length_drop, List.length_cons]
    omega
  · simp

/-- The literal macro token `'{uuid}'`. -/
def patUuid : List Char := "{uuid}".data

/-- The literal macro token `'{rnd}'`. -/
def patRnd : List Char := "{rnd}".data

/-- Lines 609-614 of `execute_contract_call`: substitute the `{uuid}`
and `{rnd}` macros in the method-call string.  `u` models the value of
`str(uuid.uuid4())` and `r` the value of `random.randint(0, 10000)`;
each is drawn once per task invocation. -/
def substMacros (method u : String) (r : Nat) : String :=
  let m1 := if patUuid <:+: method.data
    then List.asString (replaceAll method.data patUuid u.data)
    else method
  if patRnd <:+: m1.data
    then List.asString (replaceAll m1.data patRnd (Nat.repr r).data)
    else m1

/-- The line appended to the campaign log on success, the f-string
`f",{wallet_address},{tx_hash},{ts}\n"` of line 635. -/
def recordLine (address txHash ts : String) : String :=
  "," ++ address ++ "," ++ txHash ++ "," ++ ts ++ "\n"

/-- The master-wallet guard of line 569:
`wallet_name == 'master' or wallet_name.endswith('_master')`. -/
def isMasterName (name : String) : Bool :=
  name == "master" || List.isSuffixOf "_master".data name.data

/-- The validation of lines 563-564: true when one of the required
values `wallet_pk, wallet_address, abi_name, contract_address, method,
gas, gas_price` is falsy, in which case a `ValueError` is raised. -/
def missingExecValues (w : Wallet) (cfg : ExecConfig) : Bool :=
  w.pk == "" || w.address == "" || cfg.abi_name == "" ||
    cfg.contract_address == "" || cfg.method == "" ||
    cfg.gas == 0 || cfg.gas_price == 0

/-- Lines 606-637 of `execute_contract_call`: macro substitution, the
contract call itself, and on success the log write.  `funded` records
whether the funding branch ran, `cost` the transaction cost. -/
def callPhase (w : Wallet) (cfg : ExecConfig) (env : ExecEnv)
    (funded : Bool) (cost : Nat) : ExecTrace :=
  let m := substMacros cfg.method env.uuidVal env.rndVal
  match env.callTx with
  | none =>
    { outcome := .callFailed, balanceChecked := true,
      fundingAttempted := funded,
      fundingAmount := if funded then some cost else none,
      callAttempted := true, methodSent := some m, logLine := none }
  | some tx =>
    { outcome := .success, balanceChecked := true,
      fundingAttempted := funded,
      fundingAmount := if funded then some cost else none,
      callAttempted := true, methodSent := some m,
      logLine := some (recordLine w.address tx env.ts) }

/-- Shallow embedding of `execute_contract_call` (hydralisk.py 529-637):
validation, master-wallet guard, balance check, conditional funding from
the master wallet, macro substitution, contract call, log write.
`get_balance` raises when `chain` is falsy, and `send_coin` raises when
its `wallet_pk` (the master key) is falsy; both raises escape the
task. -/
def execute_contract_call (w : Wallet) (cfg : ExecConfig) (env : ExecEnv) :
    ExecTrace :=
  if missingExecValues w cfg then
    { outcome := .raised "Missing required values for contract call",
      balanceChecked := false, fundingAttempted := false,
      fundingAmount := none, callAttempted := false,
      methodSent := none, logLine := none }
  else if isMasterName w.name then
    { outcome := .skippedMaster, balanceChecked := false,
      fundingAttempted := false, fundingAmount := none,
      callAttempted := false, methodSent := none, logLine := none }
  else if cfg.chainSlug == "" then
    { outcome := .raised "Missing required parameters wallet_address and chain",
      balanceChecked := false, fundingAttempted := false,
      fundingAmount := none, callAttempted := false,
      methodSent := none, logLine := none }
  else
    let cost := cfg.gas * cfg.gas_price
    if env.balance < (cost : Rat) then
      if cfg.master_pk == "" then
        { outcome := .raised "Missing required values for wallet_pk, target_wallet, amount, chain",
          balanceChecked := true, fundingAttempted := true,
          fundingAmount := some cost, callAttempted := false,
          methodSent := none, logLine := none }
      else
        match env.fundTx with
        | none =>
          { outcome := .fundingFailed, balanceChecked := true,
            fundingAttempted := true, fundingAmount := some cost,
            callAttempted := false, methodSent := none, logLine := none }
        | some _ => callPhase w cfg env true cost
    else callPhase w cfg env false cost

/-- Python `str.split(sep)` for a single-character separator, keeping
empty pieces exactly like Python does. -/
def splitOnChar (sep : Char) : List Char → List (List Char)
  | [] => [[]]
  | c :: cs =>
    if c = sep then [] :: splitOnChar sep cs
    else
      match splitOnChar sep cs with
      | [] => [[c]]
      | h :: t => (c :: h) :: t

/-- Shallow embedding of `get_finished_wallets` (hydralisk.py 338-362):
split the log file contents on newlines and, for every row that
contains a comma, extract the second comma-separated field
(`row.split(',')[1]`).  `none` models a missing log file, which yields
the empty list. -/
def get_finished_wallets (contents : Option String) : List String :=
  match contents with
  | none => []
  | some log =>
    (splitOnChar '\n' log.data).filterMap fun row =>
      match splitOnChar ',' row with
      | _ :: addr :: _ => some (List.asString addr)
      | _ => none

/-- One completion record: wallet address, transaction hash and
timestamp, as written by the recording step. -/
structure CompletionRecord where
  address : String
  txHash : String
  ts : String
deriving DecidableEq

/-- A campaign log file produced by appending one `recordLine` per
completed call, in completion order (the recording step is the only
writer of the file). -/
def logFile (records : List CompletionRecord) : String :=
  records.foldr (fun r acc => recordLine r.address r.txHash r.ts ++ acc) ""

/-- One launched task of the scheduler: the wallet, the time offset (in
seconds after run start) at which `asyncio.create_task` runs, the
resulting task trace, and the time at which the task reaches its
terminal state. -/
structure LaunchRec where
  wallet : Wallet
  offset : Rat
  trace : ExecTrace
  finish : Rat
deriving DecidableEq

/-- The scheduling loop of `distribute_calls` (lines 672-679): launch a
task for the wallet at the current time `t`, then sleep `delay` seconds
before the next launch; the loop never awaits a launched task.  `envs i`
and `durs i` are the effect oracle and the running time of the `i`-th
task. -/
def launchLoop (cfg : ExecConfig) (envs : Nat → ExecEnv) (durs : Nat → Rat)
    (delay : Rat) : Rat → Nat → List Wallet → List LaunchRec
  | _, _, [] => []
  | t, i, w :: ws =>
    { wallet := w, offset := t,
      trace := execute_contract_call w cfg (envs i),
      finish := t + durs i } ::
      launchLoop cfg envs durs delay (t + delay) (i + 1) ws

/-- The result of one `distribute_calls` run: the pacing delay and the
launched tasks. -/
structure DistRun where
  delay : Rat
  launches : List LaunchRec
deriving DecidableEq

/-- `asyncio.gather` without `return_exceptions` re-raises the first
task exception; `none` means no task raised. -/
def DistRun.raisedMsg (r : DistRun) : Option String :=
  r.launches.findSome? fun l =>
    match l.trace.outcome with
    | .raised m => some m
    | _ => none

/-- When no task raises, `asyncio.gather` returns once every launched
task has reached its terminal state. -/
def DistRun.endTime (r : DistRun) : Rat :=
  r.launches.foldr (fun l acc => max l.finish acc) 0

/-- Shallow embedding of `distribute_calls` (hydralisk.py 648-684):
validate that the wallet list, the execution config and the time period
are truthy (raising `ValueError` otherwise), compute
`delay = time_period / len(wallets)`, then run the launch loop and
gather.  `cfgGiven` models the truthiness of `execution_config`. -/
def distribute_calls (wallets : List Wallet) (cfgGiven : Bool)
    (cfg : ExecConfig) (time_period : Int) (envs : Nat → ExecEnv)
    (durs : Nat → Rat) : Except String DistRun :=
  if wallets = [] ∨ cfgGiven = false ∨ time_period = 0 then
    .error "Missing required values for contract call wallets, execution_config, time_period"
  else
    let delay : Rat := (time_period : Rat) / (wallets.length : Rat)
    .ok { delay := delay,
          launches := launchLoop cfg envs durs delay 0 0 wallets }

/-- The wallet-classification loop of `init_hydralisk` (lines 729-736):
the master wallet (the last wallet whose name equals the master wallet
name) is set aside, wallets whose address appears in the finished list
are skipped, every other wallet becomes an execution wallet. -/
def initFilter (masterName : String) (executed : List String) :
    List Wallet → Option Wallet × List Wallet
  | [] => (none, [])
  | w :: ws =>
    let r := initFilter masterName executed ws
    if w.name = masterName then (some (r.1.getD w), r.2)
    else if w.address ∈ executed then r
    else (r.1, w :: r.2)

/-- `create_wallet(prefix=..., target_num=target)` (hydralisk.py
245-321) as invoked by `init_hydralisk`: if the system already holds at
least `target` wallets with the prefix they are all returned unchanged
(`get_wallets(prefix)`, the master wallet and already-finished wallets
included); otherwise the missing number is generated (`fresh` is the
generator oracle) and the full prefix wallet list is returned. -/
def create_wallet_target (existing fresh : List Wallet) (target : Nat) :
    List Wallet :=
  if target ≤ existing.length then existing
  else existing ++ fresh.take (target - existing.length)

/-- Inputs and oracles of one `init_hydralisk` run. -/
structure InitArgs where
  /-- `get_wallets(prefix)`: every stored wallet with the prefix -/
  wallets : List Wallet
  /-- `get_finished_wallets(...)`: addresses already in the log -/
  executed : List String
  wallet_limit : Nat
  gas : Nat
  gas_price : Nat
  /-- `execution_config['duration']` -/
  time_period : Int
  /-- `get_balance` of the resolved master wallet -/
  masterBalance : Rat
  /-- oracle for wallets generated by `create_wallet` -/
  fresh : List Wallet
  /-- oracle: address of a master wallet created when missing -/
  newMasterAddress : String
  chainName : String
  symbol : String
deriving DecidableEq

/-- How `init_hydralisk` ends.  Every constructor except `run` is a halt
that returns to the CLI without invoking the scheduler. -/
inductive InitResult where
  /-- lines 741-748: the master wallet was missing, was created, and
  the run halts with a funding instruction naming the new master's
  address and the amount to fund in wei -/
  | missingMaster (masterName masterAddress : String) (fundWei : Nat)
      (symbol : String)
  /-- lines 762-765: the master wallet's balance is zero; halt with a
  funding instruction naming the master address and the chain -/
  | zeroBalanceMaster (masterName masterAddress chainName : String)
  /-- lines 782-784: wallet creation failed -/
  | createFailed
  /-- lines 838-841: the log directory was missing; it is created and
  the run returns without scheduling -/
  | logDirMissing
  /-- line 848: `distribute_calls(scheduled, config, time_period)` -/
  | run (scheduled : List Wallet) (time_period : Int)
deriving DecidableEq

/-- The wallets handed to the scheduler, when it is invoked. -/
def InitResult.scheduledWallets : InitResult → List Wallet
  | .run ws _ => ws
  | _ => []

/-- Shallow embedding of the wallet-selection and validation pipeline of
`init_hydralisk` (hydralisk.py 693-848): classify wallets, validate the
master wallet and its balance, top the execution pool up to the wallet
limit via `create_wallet` (extending the pool with its full return
value, line 791), shuffle (`sh` models `random.shuffle`), truncate to
the wallet limit (line 799: when the limit is falsy the full
`get_wallets(prefix)` list is used instead), check the log directory,
and invoke the scheduler. -/
def init_hydralisk (masterName : String) (a : InitArgs)
    (sh : List Wallet → List Wallet) (logDirExists : Bool) : InitResult :=
  let fz := initFilter masterName a.executed a.wallets
  let finish : List Wallet → InitResult := fun ew =>
    let shuffled := sh ew
    let scheduled :=
      if a.wallet_limit ≠ 0 then shuffled.take a.wallet_limit else a.wallets
    if logDirExists then .run scheduled a.time_period else .logDirMissing
  match fz.1 with
  | none =>
    .missingMaster masterName a.newMasterAddress
      (a.wallet_limit * a.gas * a.gas_price) a.symbol
  | some master =>
    if a.masterBalance = 0 then
      .zeroBalanceMaster masterName master.address a.chainName
    else if fz.2 = [] ∨ fz.2.length < a.wallet_limit then
      let result := create_wallet_target a.wallets a.fresh a.wallet_limit
      if result = [] then .createFailed else finish (fz.2 ++ result)
    else finish fz.2

/-- The character alphabet of a canonical `uuid.uuid4()` string:
lowercase hexadecimal digits and the dash. -/
def uuidAlphabet : List Char := "0123456789abcdef-".data

/-! ### Concrete fixtures used by counterexamples and witnesses -/

/-- A canonical version-4 UUID string. -/
def uuidFix : String := "f47ac10b-58cc-4372-a567-0e02b2c3d479"

/-- An ordinary execution wallet. -/
def wFix : Wallet := ⟨"spore_0xab12_cd34", "0xAB", "pkA"⟩

/-- A master wallet (name ends in `_master`). -/
def wMasterFix : Wallet := ⟨"hydra_master", "0xM0", "pkM0"⟩

/-- A wallet with a falsy private key. -/
def wBadFix : Wallet := ⟨"spore_bad", "0xBB", ""⟩

/-- A fully populated execution configuration. -/
def cfgFix : ExecConfig :=
  ⟨"camp", "mumbai", 73109, 1500000000, "pkMaster", "tower", "0xC0",
    "dailyLog({uuid})", "./log/"⟩

/-- An effect oracle: zero balance (funding needed), both CLI calls
succeed. -/
def envFix : ExecEnv :=
  ⟨0, some "0xf100", some "0xace1", uuidFix, 42, "2024-01-01 00:00:00"⟩

/-- C2 scenario, second run of a completed campaign: the master wallet
and one execution wallet exist, and the execution wallet's address is
already in the log. -/
def c2master : Wallet := ⟨"spore_master", "0xM1", "pkM1"⟩

/-- The already-executed wallet of the C2 scenario. -/
def c2w1 : Wallet := ⟨"spore_a1b2c3_d4e5", "0xA1", "pk1"⟩

/-- Arguments of the C2 scenario: wallet limit 2, the lone execution
wallet already logged, master funded. -/
def c2args : InitArgs :=
  { wallets := [c2master, c2w1], executed := ["0xA1"], wallet_limit := 2,
    gas := 73109, gas_price := 1500000000, time_period := 3600,
    masterBalance := 1, fresh := [], newMasterAddress := "0xNEW",
    chainName := "Mumbai Polygon Testnet", symbol := "MATIC" }

/-- C3 scenario master wallet. -/
def c3master : Wallet := ⟨"hydra_master", "0xM2", "pkM2"⟩

/-- C3 scenario executed wallet. -/
def c3w1 : Wallet := ⟨"hydra_f00ba1_ba52", "0xE1", "pkE1"⟩

/-- Arguments of the C3 scenario (same shape as C2, different prefix). -/
def c3args : InitArgs :=
  { wallets := [c3master, c3w1], executed := ["0xE1"], wallet_limit := 2,
    gas := 21000, gas_price := 5000000000, time_period := 60,
    masterBalance := 2, fresh := [], newMasterAddress := "0xNEW2",
    chainName := "BSC Mainnet", symbol := "BSC" }

/-- Arguments for the C8 witness: no wallet carries the master name. -/
def c8args : InitArgs :=
  { wallets := [wFix], executed := [], wallet_limit := 3,
    gas := 73109, gas_price := 1500000000, time_period := 3600,
    masterBalance := 0, fresh := [], newMasterAddress := "0xNEW3",
    chainName := "Ethereum Mainnet", symbol := "ETH" }

/-- Arguments for the C8 witness, zero-balance branch: the master
resolves but holds no funds. -/
def c8argsZero : InitArgs :=
  { wallets := [c2master, wFix], executed := [], wallet_limit := 3,
    gas := 73109, gas_price := 1500000000, time_period := 3600,
    masterBalance := 0, fresh := [], newMasterAddress := "0xNEW4",
    chainName := "Ethereum Mainnet", symbol := "ETH" }

/-- A clean completion record, as in the spec's log-parsing example. -/
def recFix : CompletionRecord := ⟨"0xABC", "0xhash1", "2024-01-01 00:00:00"⟩

/-! ### Lemmas about `replaceAll` -/

/-- Unfolding equation for `replaceAll`. -/
theorem replaceAll_eq (s pat rep : List Char) :
    replaceAll s pat rep =
      match s with
      | [] => []
      | c :: cs =>
        if pat ≠ [] ∧ pat <+: (c :: cs) then
          rep ++ replaceAll ((c :: cs).drop pat.length) pat rep
        else
          c :: replaceAll cs pat rep := by
  conv_lhs => unfold replaceAll

theorem replaceAll_nil (pat rep : List Char) : replaceAll [] pat rep = [] := by
  rw [replaceAll_eq]

theorem replaceAll_cons_pos {c : Char} {cs pat : List Char} (rep : List Char)
    (h : pat ≠ [] ∧ pat <+: (c :: cs)) :
    replaceAll (c :: cs) pat rep
      = rep ++ replaceAll ((c :: cs).drop pat.length) pat rep := by
  rw [replaceAll_eq]
  exact if_pos h

theorem replaceAll_cons_neg {c : Char} {cs pat : List Char} (rep : List Char)
    (h : ¬(pat ≠ [] ∧ pat <+: (c :: cs))) :
    replaceAll (c :: cs) pat rep = c :: replaceAll cs pat rep := by
  rw [replaceAll_eq]
  exact if_neg h

/-- A list `q` whose shape is constrained by `Q` and that is a prefix of
the output of `replaceAll` is already a prefix of the input: under the
side conditions, no prefix of the output can overlap an inserted
replacement block. -/
theorem prefix_replaceAll (pat rep : List Char) (hrep : rep ≠ [])
    (Q : List Char → Prop) (hQtail : ∀ a q, Q (a :: q) → Q q)
    (hQ : ∀ q, Q q → q ≠ [] → ¬ q <+: rep ∧ ¬ rep <+: q) :
    ∀ s q, Q q → q <+: replaceAll s pat rep → q <+: s := by
  intro s
  induction s with
  | nil =>
    intro q _ h
    rw [replaceAll_nil] at h
    exact h
  | cons c cs ih =>
    intro q hQq hpre
    by_cases hm : pat ≠ [] ∧ pat <+: (c :: cs)
    · rw [replaceAll_cons_pos rep hm] at hpre
      rcases q with _ | ⟨a, q'⟩
      · exact List.nil_prefix
      · exfalso
        have h2 := hQ _ hQq (by simp)
        rcases le_total (a :: q').length rep.length with hle | hle
        · exact h2.1 (List.prefix_of_prefix_length_le hpre (List.prefix_append rep _) hle)
        · exact h2.2 (List.prefix_of_prefix_length_le (List.prefix_append rep _) hpre hle)
    · rw [replaceAll_cons_neg rep hm] at hpre
      rcases q with _ | ⟨a, q'⟩
      · exact List.nil_prefix
      · rw [List.cons_prefix_cons] at hpre
        obtain ⟨rfl, hp'⟩ := hpre
        exact List.cons_prefix_cons.mpr ⟨rfl, ih q' (hQtail _ _ hQq) hp'⟩

/-- An occurrence of a pattern whose head is not in `l₁` lies entirely
in `l₂`. -/
theorem infix_append_right {p : Char} {pt l₁ l₂ : List Char}
    (hhd : p ∉ l₁) (h : (p :: pt) <:+: l₁ ++ l₂) : (p :: pt) <:+: l₂ := by
  induction l₁ with
  | nil => simpa using h
  | cons a l₁ ih =>
    rw [List.cons_append, List.infix_cons_iff] at h
    rcases h with h | h
    · rw [List.cons_prefix_cons] at h
      refine absurd ?_ hhd
      rw [h.1]
      exact List.mem_cons_self a l₁
    · exact ih (fun hm => hhd (List.mem_cons_of_mem a hm)) h

/-- When no character of `rep` occurs in `pat`, replacement blocks can
contribute no character to an occurrence of a `pat`-constrained word. -/
theorem charwise_hQ {pat rep : List Char} (hrep : rep ≠ [])
    (hdis : ∀ c ∈ rep, c ∉ pat) :
    ∀ q, (∀ ch ∈ q, ch ∈ pat) → q ≠ [] → ¬ q <+: rep ∧ ¬ rep <+: q := by
  intro q hq hne
  constructor
  · intro hqr
    rcases q with _ | ⟨a, q'⟩
    · exact hne rfl
    · exact hdis a ( List.IsPrefix.subset hqr (List.mem_cons_self a q'))
        (hq a (List.mem_cons_self a q'))
  · intro hrq
    rcases rep with _ | ⟨r0, rs⟩
    · exact hrep rfl
    · exact hdis r0 (List.mem_cons_self r0 rs)
        (hq r0 ( List.IsPrefix.subset hrq (List.mem_cons_self r0 rs)))

/-- Specialization of `charwise_hQ` to suffixes of the pattern. -/
theorem charwise_suffix_hQ {pat rep : List Char} (hrep : rep ≠ [])
    (hdis : ∀ c ∈ rep, c ∉ pat) :
    ∀ q, q <:+ pat → q ≠ [] → ¬ q <+: rep ∧ ¬ rep <+: q :=
  fun q hq hne =>
    charwise_hQ hrep hdis q (fun ch hch => List.IsSuffix.subset hq hch) hne

/-- Core lemma: `replaceAll` leaves no occurrence of the pattern behind
and creates none, under side conditions satisfied by the two macro
substitutions. -/
theorem not_pat_infix_replaceAll_aux (p : Char) (pt rep : List Char)
    (hrep : rep ≠ []) (hhd : p ∉ rep)
    (hQ : ∀ q, q <:+ (p :: pt) → q ≠ [] → ¬ q <+: rep ∧ ¬ rep <+: q) :
    ∀ n s, s.length ≤ n → ¬ (p :: pt) <:+: replaceAll s (p :: pt) rep := by
  intro n
  induction n with
  | zero =>
    intro s hs
    have hnil : s = [] := List.length_eq_zero.mp (Nat.le_zero.mp hs)
    subst hnil
    rw [replaceAll_nil]
    simp
  | succ n ih =>
    intro s hs
    rcases s with _ | ⟨c, cs⟩
    · rw [replaceAll_nil]; simp
    · by_cases hm : (p :: pt) ≠ [] ∧ (p :: pt) <+: (c :: cs)
      · rw [replaceAll_cons_pos rep hm]
        intro hinf
        refine ih ((c :: cs).drop (p :: pt).length) ?_ (infix_append_right hhd hinf)
        simp only [List.length_drop, List.length_cons] at hs ⊢
        omega
      · rw [replaceAll_cons_neg rep hm]
        intro hinf
        rw [List.infix_cons_iff] at hinf
        rcases hinf with hpre | hinf
        · rw [List.cons_prefix_cons] at hpre
          obtain ⟨rfl, hpt⟩ := hpre
          have hcs : pt <+: cs :=
            prefix_replaceAll (p :: pt) rep hrep (fun q => q <:+ (p :: pt))
              (fun a q hq => List.IsSuffix.trans (List.suffix_cons a q) hq)
              hQ cs pt (List.suffix_cons p pt) hpt
          exact hm ⟨by simp, List.cons_prefix_cons.mpr ⟨rfl, hcs⟩⟩
        · refine ih cs ?_ hinf
          simp only [List.length_cons] at hs
          omega

/-- `replaceAll` output never contains the (non-empty) pattern. -/
theorem not_pat_infix_replaceAll (p : Char) (pt rep : List Char)
    (hrep : rep ≠ []) (hhd : p ∉ rep)
    (hQ : ∀ q, q <:+ (p :: pt) → q ≠ [] → ¬ q <+: rep ∧ ¬ rep <+: q)
    (s : List Char) : ¬ (p :: pt) <:+: replaceAll s (p :: pt) rep :=
  not_pat_infix_replaceAll_aux p pt rep hrep hhd hQ s.length s le_rfl

/-- Replacing one pattern cannot create an occurrence of a different
pattern that shares no character with the replacement text. -/
theorem not_infix_replaceAll_preserve_aux (p' : Char) (pt' pat rep : List Char)
    (hrep : rep ≠ []) (hdis : ∀ c ∈ rep, c ∉ (p' :: pt')) :
    ∀ n s, s.length ≤ n → ¬ (p' :: pt') <:+: s →
      ¬ (p' :: pt') <:+: replaceAll s pat rep := by
  intro n
  induction n with
  | zero =>
    intro s hs _
    have hnil : s = [] := List.length_eq_zero.mp (Nat.le_zero.mp hs)
    subst hnil
    rw [replaceAll_nil]
    simp
  | succ n ih =>
    intro s hs hnotin
    rcases s with _ | ⟨c, cs⟩
    · rw [replaceAll_nil]; simp
    · by_cases hm : pat ≠ [] ∧ pat <+: (c :: cs)
      · rw [replaceAll_cons_pos rep hm]
        intro hinf
        have hp' : p' ∉ rep := fun hmem => hdis p' hmem (List.mem_cons_self p' pt')
        have h2 := infix_append_right hp' hinf
        have hd : ¬ (p' :: pt') <:+: (c :: cs).drop pat.length := fun hx =>
          hnotin ( List.IsInfix.trans hx ( List.IsSuffix.isInfix (List.drop_suffix _ _)))
        refine ih _ ?_ hd h2
        have hp : 0 < pat.length := List.length_pos.mpr hm.1
        simp only [List.length_drop, List.length_cons] at hs ⊢
        omega
      · rw [replaceAll_cons_neg rep hm]
        intro hinf
        rw [List.infix_cons_iff] at hinf
        rcases hinf with hpre | hinf
        · rw [List.cons_prefix_cons] at hpre
          obtain ⟨rfl, hpt⟩ := hpre
          have hcs : pt' <+: cs :=
            prefix_replaceAll pat rep hrep (fun q => ∀ ch ∈ q, ch ∈ (p' :: pt'))
              (fun a q hq ch hch => hq ch (List.mem_cons_of_mem a hch))
              (charwise_hQ hrep hdis) cs pt'
              (fun ch hch => List.mem_cons_of_mem p' hch) hpt
          exact hnotin ( List.IsPrefix.isInfix (List.cons_prefix_cons.mpr ⟨rfl, hcs⟩))
        · refine ih cs ?_ (fun hx => hnotin (List.infix_cons hx)) hinf
          simp only [List.length_cons] at hs
          omega

/-- Wrapper for `not_infix_replaceAll_preserve_aux`. -/
theorem not_infix_replaceAll_preserve (p' : Char) (pt' pat rep : List Char)
    (hrep : rep ≠ []) (hdis : ∀ c ∈ rep, c ∉ (p' :: pt'))
    (s : List Char) (hnotin : ¬ (p' :: pt') <:+: s) :
    ¬ (p' :: pt') <:+: replaceAll s pat rep :=
  not_infix_replaceAll_preserve_aux p' pt' pat rep hrep hdis s.length s le_rfl hnotin

/-- If the pattern does not occur, `replaceAll` is the identity (this is
also Python's behaviour of `str.replace`). -/
theorem replaceAll_of_not_infix {pat : List Char} (rep : List Char) :
    ∀ s, ¬ pat <:+: s → replaceAll s pat rep = s := by
  intro s
  induction s with
  | nil => intro _; exact replaceAll_nil pat rep
  | cons c cs ih =>
    intro h
    by_cases hm : pat ≠ [] ∧ pat <+: (c :: cs)
    · exact absurd ( List.IsPrefix.isInfix hm.2) h
    · rw [replaceAll_cons_neg rep hm, ih (fun hi => h (List.infix_cons hi))]

/-- Computation rule: a leading segment free of the pattern's head
character is copied verbatim, then the explicit pattern occurrence is
replaced. -/
theorem replaceAll_append_pat {p : Char} {pt : List Char} (rep : List Char)
    {a : List Char} (t : List Char) (ha : p ∉ a) :
    replaceAll (a ++ (p :: pt) ++ t) (p :: pt) rep
      = a ++ rep ++ replaceAll t (p :: pt) rep := by
  induction a with
  | nil =>
    have hpre : (p :: pt) <+: p :: (pt ++ t) := by
      rw [show p :: (pt ++ t) = (p :: pt) ++ t from rfl]
      exact List.prefix_append _ _
    simp only [List.nil_append]
    rw [show (p :: pt) ++ t = p :: (pt ++ t) from rfl]
    rw [replaceAll_cons_pos rep ⟨by simp, hpre⟩]
    rw [show p :: (pt ++ t) = (p :: pt) ++ t from rfl, List.drop_left]
  | cons x a' ih =>
    have hx : ¬ ((p :: pt) ≠ [] ∧ (p :: pt) <+: (x :: (a' ++ (p :: pt) ++ t))) := by
      rintro ⟨-, hpre⟩
      rw [List.cons_prefix_cons] at hpre
      apply ha
      rw [hpre.1]
      exact List.mem_cons_self x a'
    have hstep : (x :: a') ++ (p :: pt) ++ t = x :: (a' ++ (p :: pt) ++ t) := by
      simp
    rw [hstep, replaceAll_cons_neg rep hx,
      ih (fun hm => ha (List.mem_cons_of_mem x hm))]
    simp

/-- If the head character of the pattern does not occur in `s`, the
replacement is the identity. -/
theorem replaceAll_head_not_mem {p : Char} {pt : List Char} (rep : List Char)
    {s : List Char} (hs : p ∉ s) : replaceAll s (p :: pt) rep = s := by
  induction s with
  | nil => exact replaceAll_nil _ _
  | cons c cs ih =>
    have hx : ¬ ((p :: pt) ≠ [] ∧ (p :: pt) <+: (c :: cs)) := by
      rintro ⟨-, hpre⟩
      rw [List.cons_prefix_cons] at hpre
      apply hs
      rw [hpre.1]
      exact List.mem_cons_self c cs
    rw [replaceAll_cons_neg rep hx, ih (fun hm => hs (List.mem_cons_of_mem c hm))]

/-! ### Digits of `Nat.repr` -/

theorem asString_data (l : List Char) : (List.asString l).data = l := rfl

/-- Pushing `String.data` through an `if`. -/
theorem data_ite (c : Prop) [Decidable c] (x y : String) :
    (if c then x else y).data = if c then x.data else y.data := by
  split_ifs <;> rfl

theorem digitChar_isDigit {m : Nat} (h : m < 10) :
    (Nat.digitChar m).isDigit = true := by
  interval_cases m <;> decide

theorem toDigitsCore_digits :
    ∀ (fuel n : Nat) (ds : List Char), (∀ c ∈ ds, c.isDigit = true) →
      ∀ c ∈ Nat.toDigitsCore 10 fuel n ds, c.isDigit = true := by
  intro fuel
  induction fuel with
  | zero => intro n ds hds; simpa [Nat.toDigitsCore] using hds
  | succ fuel ih =>
    intro n ds hds
    have hddig : (Nat.digitChar (n % 10)).isDigit = true :=
      digitChar_isDigit (Nat.mod_lt n (by norm_num))
    simp only [Nat.toDigitsCore]
    by_cases h : n / 10 = 0
    · rw [if_pos h]
      intro c hc
      rcases List.mem_cons.mp hc with rfl | hmem
      · exact hddig
      · exact hds c hmem
    · rw [if_neg h]
      refine ih (n / 10) _ ?_
      intro c' hc'
      rcases List.mem_cons.mp hc' with rfl | hmem
      · exact hddig
      · exact hds c' hmem

theorem toDigitsCore_cons_ne_nil (b : Nat) :
    ∀ (fuel n : Nat) (d : Char) (ds : List Char),
      Nat.toDigitsCore b fuel n (d :: ds) ≠ [] := by
  intro fuel
  induction fuel with
  | zero => intro n d ds; simp [Nat.toDigitsCore]
  | succ fuel ih =>
    intro n d ds
    simp only [Nat.toDigitsCore]
    by_cases h : n / b = 0
    · rw [if_pos h]; simp
    · rw [if_neg h]; exact ih (n / b) _ _

theorem toDigits_ne_nil (n : Nat) : Nat.toDigits 10 n ≠ [] := by
  unfold Nat.toDigits
  simp only [Nat.toDigitsCore]
  by_cases h : n / 10 = 0
  · rw [if_pos h]; simp
  · rw [if_neg h]; exact toDigitsCore_cons_ne_nil 10 n (n / 10) _ _

theorem repr_data_digits (n : Nat) : ∀ c ∈ (Nat.repr n).data, c.isDigit = true := by
  intro c hc
  have hrw : (Nat.repr n).data = Nat.toDigits 10 n := rfl
  rw [hrw] at hc
  exact toDigitsCore_digits (n + 1) n [] (by simp) c hc

theorem repr_data_ne_nil (n : Nat) : (Nat.repr n).data ≠ [] := by
  have hrw : (Nat.repr n).data = Nat.toDigits 10 n := rfl
  rw [hrw]
  exact toDigits_ne_nil n

/-! ### Characters of the macro tokens -/

theorem isDigit_not_mem_patUuid {c : Char} (h : c.isDigit = true) :
    c ∉ patUuid := by
  intro hc
  have he : patUuid = ['{', 'u', 'u', 'i', 'd', '}'] := rfl
  rw [he] at hc
  fin_cases hc <;> exact absurd h (by decide)

theorem isDigit_not_mem_patRnd {c : Char} (h : c.isDigit = true) :
    c ∉ patRnd := by
  intro hc
  have he : patRnd = ['{', 'r', 'n', 'd', '}'] := rfl
  rw [he] at hc
  fin_cases hc <;> exact absurd h (by decide)

theorem isDigit_ne_brace {c : Char} (h : c.isDigit = true) : c ≠ '{' := by
  intro hc
  subst hc
  exact absurd h (by decide)

theorem mem_uuidAlphabet_not_brace {c : Char} (h : c ∈ uuidAlphabet) :
    c ≠ '{' := by
  intro hc
  subst hc
  exact absurd h (by decide)

/-- No non-empty suffix of `'{uuid}'` is a prefix of a UUID-alphabet
word of length at least two, and conversely. -/
theorem uuid_hQ {u : List Char} (hA : ∀ c ∈ u, c ∈ uuidAlphabet)
    (hlen : 2 ≤ u.length) :
    ∀ q, q <:+ patUuid → q ≠ [] → ¬ q <+: u ∧ ¬ u <+: q := by
  intro q hq hne
  rw [← List.mem_tails] at hq
  have he : patUuid.tails = [['{', 'u', 'u', 'i', 'd', '}'],
      ['u', 'u', 'i', 'd', '}'], ['u', 'i', 'd', '}'], ['i', 'd', '}'],
      ['d', '}'], ['}'], []] := rfl
  rw [he] at hq
  rcases u with _ | ⟨a, u1⟩
  · simp at hlen
  rcases u1 with _ | ⟨b, u2⟩
  · simp at hlen
  have hax : a ∈ uuidAlphabet := hA a (by simp)
  have hbx : b ∈ uuidAlphabet := hA b (by simp)
  simp only [List.mem_cons, List.not_mem_nil, or_false] at hq
  rcases hq with rfl | rfl | rfl | rfl | rfl | rfl | rfl
  · constructor
    · rintro ⟨t, ht⟩
      simp only [List.cons_append] at ht
      injection ht with h1 h2
      rw [← h1] at hax
      exact absurd hax (by decide)
    · rintro ⟨t, ht⟩
      simp only [List.cons_append] at ht
      injection ht with h1 h2
      rw [h1] at hax
      exact absurd hax (by decide)
  · constructor
    · rintro ⟨t, ht⟩
      simp only [List.cons_append] at ht
      injection ht with h1 h2
      rw [← h1] at hax
      exact absurd hax (by decide)
    · rintro ⟨t, ht⟩
      simp only [List.cons_append] at ht
      injection ht with h1 h2
      rw [h1] at hax
      exact absurd hax (by decide)
  · constructor
    · rintro ⟨t, ht⟩
      simp only [List.cons_append] at ht
      injection ht with h1 h2
      rw [← h1] at hax
      exact absurd hax (by decide)
    · rintro ⟨t, ht⟩
      simp only [List.cons_append] at ht
      injection ht with h1 h2
      rw [h1] at hax
      exact absurd hax (by decide)
  · constructor
    · rintro ⟨t, ht⟩
      simp only [List.cons_append] at ht
      injection ht with h1 h2
      rw [← h1] at hax
      exact absurd hax (by decide)
    · rintro ⟨t, ht⟩
      simp only [List.cons_append] at ht
      injection ht with h1 h2
      rw [h1] at hax
      exact absurd hax (by decide)
  · constructor
    · rintro ⟨t, ht⟩
      simp only [List.cons_append] at ht
      injection ht with h1 h2
      injection h2 with h3 h4
      rw [← h3] at hbx
      exact absurd hbx (by decide)
    · rintro ⟨t, ht⟩
      simp only [List.cons_append] at ht
      injection ht with h1 h2
      injection h2 with h3 h4
      rw [h3] at hbx
      exact absurd hbx (by decide)
  · constructor
    · rintro ⟨t, ht⟩
      simp only [List.cons_append] at ht
      injection ht with h1 h2
      rw [← h1] at hax
      exact absurd hax (by decide)
    · rintro ⟨t, ht⟩
      simp only [List.cons_append] at ht
      injection ht with h1 h2
      simp at h2
  · exact absurd rfl hne

/-- Step one of `substMacros` leaves no `'{uuid}'` token. -/
theorem step1_no_uuid (m u : List Char) (hA : ∀ c ∈ u, c ∈ uuidAlphabet)
    (hlen : 2 ≤ u.length) :
    ¬ patUuid <:+: (if patUuid <:+: m then replaceAll m patUuid u else m) := by
  have hune : u ≠ [] := by
    rcases u with _ | _
    · simp at hlen
    · simp
  have hubr : '{' ∉ u := fun hc => mem_uuidAlphabet_not_brace (hA _ hc) rfl
  split_ifs with h
  · have hp : patUuid = '{' :: ['u', 'u', 'i', 'd', '}'] := rfl
    rw [hp]
    exact not_pat_infix_replaceAll '{' _ u hune hubr
      (by rw [← hp]; exact uuid_hQ hA hlen) m
  · exact h

/-- Step two of `substMacros` (the `'{rnd}'` substitution with a digit
string) leaves no `'{rnd}'` token and creates no `'{uuid}'` token. -/
theorem step2_no_tokens (m1 d : List Char) (hnu : ¬ patUuid <:+: m1)
    (hdne : d ≠ []) (hdg : ∀ c ∈ d, c.isDigit = true) :
    ¬ patUuid <:+: (if patRnd <:+: m1 then replaceAll m1 patRnd d else m1)
      ∧ ¬ patRnd <:+: (if patRnd <:+: m1 then replaceAll m1 patRnd d else m1) := by
  have hdisU : ∀ c ∈ d, c ∉ patUuid := fun c hc => isDigit_not_mem_patUuid (hdg c hc)
  have hdisR : ∀ c ∈ d, c ∉ patRnd := fun c hc => isDigit_not_mem_patRnd (hdg c hc)
  have hdbr : '{' ∉ d := fun hc => isDigit_ne_brace (hdg _ hc) rfl
  split_ifs with h
  · constructor
    · have hp : patUuid = '{' :: ['u', 'u', 'i', 'd', '}'] := rfl
      rw [hp] at hnu ⊢
      rw [hp] at hdisU
      exact not_infix_replaceAll_preserve '{' _ patRnd d hdne hdisU m1 hnu
    · have hp : patRnd = '{' :: ['r', 'n', 'd', '}'] := rfl
      rw [hp]
      have hq := charwise_suffix_hQ hdne hdisR
      rw [hp] at hq
      exact not_pat_infix_replaceAll '{' _ d hdne hdbr hq m1
  · exact ⟨hnu, h⟩

/-- The string produced by `substMacros` contains neither macro token,
for any method template, any canonical UUID value and any random
draw. -/
theorem substMacros_no_tokens (method u : String) (r : Nat)
    (hA : ∀ c ∈ u.data, c ∈ uuidAlphabet) (hlen : 2 ≤ u.data.length) :
    ¬ patUuid <:+: (substMacros method u r).data
      ∧ ¬ patRnd <:+: (substMacros method u r).data := by
  have h1 := step1_no_uuid method.data u.data hA hlen
  have h2 := step2_no_tokens
    (if patUuid <:+: method.data then replaceAll method.data patUuid u.data
      else method.data)
    (Nat.repr r).data h1 (repr_data_ne_nil r) (repr_data_digits r)
  simp only [substMacros, data_ite, asString_data]
  exact h2

/-- `methodSent` of a task trace is either absent or exactly the
substituted method string. -/
theorem methodSent_spec (w : Wallet) (cfg : ExecConfig) (env : ExecEnv) :
    (execute_contract_call w cfg env).methodSent = none
      ∨ (execute_contract_call w cfg env).methodSent
          = some (substMacros cfg.method env.uuidVal env.rndVal) := by
  unfold execute_contract_call callPhase
  rcases env.fundTx with _ | f <;> rcases env.callTx with _ | t <;>
    split_ifs <;> simp <;>
    first
      | contradiction
      | exact lt_or_le _ _
      | exact le_or_lt _ _
      | exact Or.inr (lt_or_le _ _)
      | exact Or.inr (le_or_lt _ _)
      | (split_ifs <;> simp)

/-! ### Completion-log parsing -/

theorem asString_data_self (s : String) : List.asString s.data = s := by
  rcases s with ⟨d⟩
  rfl

theorem splitOnChar_sep_cons (sep : Char) (cs : List Char) :
    splitOnChar sep (sep :: cs) = [] :: splitOnChar sep cs := by
  simp [splitOnChar]

theorem splitOnChar_append_sep (sep : Char) (row rest : List Char)
    (hrow : sep ∉ row) :
    splitOnChar sep (row ++ sep :: rest) = row :: splitOnChar sep rest := by
  induction row with
  | nil => simp [splitOnChar]
  | cons c r ih =>
    have hc : ¬ c = sep := fun h => hrow (List.mem_cons.mpr (Or.inl h.symm))
    have hr : sep ∉ r := fun h => hrow (List.mem_cons_of_mem c h)
    simp [splitOnChar, hc, ih hr]

theorem splitOnChar_not_mem (sep : Char) (row : List Char)
    (hrow : sep ∉ row) : splitOnChar sep row = [row] := by
  induction row with
  | nil => rfl
  | cons c r ih =>
    have hc : ¬ c = sep := fun h => hrow (List.mem_cons.mpr (Or.inl h.symm))
    have hr : sep ∉ r := fun h => hrow (List.mem_cons_of_mem c h)
    simp [splitOnChar, hc, ih hr]

/-- Round trip: parsing a log file made of clean record lines returns
exactly the appended addresses, in order. -/
theorem get_finished_wallets_logFile (records : List CompletionRecord)
    (hclean : ∀ r ∈ records, '\n' ∉ r.address.data ∧ ',' ∉ r.address.data
        ∧ '\n' ∉ r.txHash.data ∧ '\n' ∉ r.ts.data) :
    get_finished_wallets (some (logFile records))
      = records.map (fun r => r.address) := by
  induction records with
  | nil => rfl
  | cons r rs ih =>
    obtain ⟨hna, hca, hnt, hnts⟩ := hclean r (List.mem_cons_self r rs)
    have hrest := ih (fun x hx => hclean x (List.mem_cons_of_mem r hx))
    have hc1 : (",").data = [','] := rfl
    have hc2 : ("\n").data = ['\n'] := rfl
    have hlog : (logFile (r :: rs)).data
        = (',' :: (r.address.data ++ ',' :: (r.txHash.data ++ ',' :: r.ts.data)))
          ++ '\n' :: (logFile rs).data := by
      show (recordLine r.address r.txHash r.ts ++ logFile rs).data = _
      simp [recordLine, String.data_append, hc1, hc2]
    have hnorow : '\n'
        ∉ (',' :: (r.address.data ++ ',' :: (r.txHash.data ++ ',' :: r.ts.data))) := by
      intro hmem
      simp only [List.mem_cons, List.mem_append] at hmem
      rcases hmem with h | h | h | h | h | h
      · exact absurd h (by decide)
      · exact hna h
      · exact absurd h (by decide)
      · exact hnt h
      · exact absurd h (by decide)
      · exact hnts h
    show (splitOnChar '\n' (logFile (r :: rs)).data).filterMap _
        = (r :: rs).map (fun x => x.address)
    rw [hlog, splitOnChar_append_sep _ _ _ hnorow, List.filterMap_cons]
    rw [splitOnChar_sep_cons, splitOnChar_append_sep _ _ _ hca]
    simp only [asString_data_self]
    rw [show ((splitOnChar '\n' (logFile rs).data).filterMap fun row =>
          match splitOnChar ',' row with
          | _ :: addr :: _ => some (List.asString addr)
          | _ => none) = get_finished_wallets (some (logFile rs)) from rfl]
    rw [hrest]
    rfl

/-! ### The wallet-classification loop -/

theorem initFilter_fst_none_iff (mn : String) (ex : List String)
    (ws : List Wallet) :
    (initFilter mn ex ws).1 = none ↔ ∀ w ∈ ws, w.name ≠ mn := by
  induction ws with
  | nil => simp [initFilter]
  | cons w ws ih =>
    by_cases h1 : w.name = mn
    · simp [initFilter, h1]
    · by_cases h2 : w.address ∈ ex <;> simp [initFilter, h1, h2, ih]

theorem initFilter_snd_spec (mn : String) (ex : List String)
    (ws : List Wallet) :
    ∀ w ∈ (initFilter mn ex ws).2, w ∈ ws ∧ w.address ∉ ex ∧ w.name ≠ mn := by
  induction ws with
  | nil => simp [initFilter]
  | cons w0 ws ih =>
    intro w hw
    by_cases h1 : w0.name = mn
    · simp only [initFilter, if_pos h1] at hw
      obtain ⟨ha, hb, hc⟩ := ih w hw
      exact ⟨List.mem_cons_of_mem _ ha, hb, hc⟩
    · by_cases h2 : w0.address ∈ ex
      · simp only [initFilter, if_neg h1, if_pos h2] at hw
        obtain ⟨ha, hb, hc⟩ := ih w hw
        exact ⟨List.mem_cons_of_mem _ ha, hb, hc⟩
      · simp only [initFilter, if_neg h1, if_neg h2] at hw
        rcases List.mem_cons.mp hw with rfl | hw'
        · exact ⟨List.mem_cons_self w ws, h2, h1⟩
        · obtain ⟨ha, hb, hc⟩ := ih w hw'
          exact ⟨List.mem_cons_of_mem _ ha, hb, hc⟩

/-! ### The scheduling loop -/

theorem launchLoop_offsets (cfg : ExecConfig) (envs : Nat → ExecEnv)
    (durs : Nat → Rat) (delay : Rat) :
    ∀ (ws : List Wallet) (t : Rat) (i : Nat),
      (launchLoop cfg envs durs delay t i ws).map (fun l => l.offset)
        = (List.range ws.length).map (fun k : Nat => t + (k : Rat) * delay) := by
  intro ws
  induction ws with
  | nil => intro t i; simp [launchLoop]
  | cons w ws ih =>
    intro t i
    simp only [launchLoop, List.map_cons, List.length_cons,
      List.range_succ_eq_map, List.map_map]
    rw [ih (t + delay) (i + 1)]
    congr 1
    · push_cast
      ring
    · apply List.map_congr_left
      intro k _
      simp only [Function.comp_apply]
      push_cast
      ring

theorem launchLoop_length (cfg : ExecConfig) (envs : Nat → ExecEnv)
    (durs : Nat → Rat) (delay : Rat) :
    ∀ (ws : List Wallet) (t : Rat) (i : Nat),
      (launchLoop cfg envs durs delay t i ws).length = ws.length := by
  intro ws
  induction ws with
  | nil => intro t i; simp [launchLoop]
  | cons w ws ih => intro t i; simp [launchLoop, ih (t + delay) (i + 1)]

/-- Every launch record holds the trace of its own wallet with its own
oracle: tasks are independent of one another. -/
theorem launchLoop_trace_mem (cfg : ExecConfig) (envs : Nat → ExecEnv)
    (durs : Nat → Rat) (delay : Rat) :
    ∀ (ws : List Wallet) (t : Rat) (i : Nat),
      ∀ l ∈ launchLoop cfg envs durs delay t i ws,
        ∃ k, l.trace = execute_contract_call l.wallet cfg (envs k)
          ∧ l.finish = l.offset + durs k := by
  intro ws
  induction ws with
  | nil => intro t i; simp [launchLoop]
  | cons w ws ih =>
    intro t i l hl
    rcases List.mem_cons.mp hl with rfl | hl'
    · exact ⟨i, rfl, rfl⟩
    · exact ih (t + delay) (i + 1) l hl'

theorem finish_le_endTime (r : DistRun) :
    ∀ l ∈ r.launches, l.finish ≤ r.endTime := by
  unfold DistRun.endTime
  generalize r.launches = L
  induction L with
  | nil => simp
  | cons x xs ih =>
    intro l hl
    rcases List.mem_cons.mp hl with rfl | hl'
    · exact le_max_left _ _
    · exact le_trans (ih l hl') (le_max_right _ _)

/-- `gather` re-raises nothing when no task raised. -/
theorem raisedMsg_eq_none (r : DistRun)
    (h : ∀ l ∈ r.launches, ∀ m, l.trace.outcome ≠ .raised m) :
    r.raisedMsg = none := by
  unfold DistRun.raisedMsg
  rw [List.findSome?_eq_none_iff]
  intro l hl
  cases ho : l.trace.outcome
  case raised m => exact absurd ho (h l hl m)
  all_goals simp [ho]

/-! ### Claims -/

/-- C1: for every non-empty wallet list of length N and duration D > 0,
`distribute_calls` computes `delay = D/N`; the k-th launched task starts
exactly at `(k-1)*delay` after run start (0-indexed `k*delay`), so
launch times are monotonically non-decreasing; the launch offsets are
identical for every assignment of task effects and durations, so
launching never waits for a previously launched task to finish, only for
the pacing delay; and once no task raises, the gather point is reached
no earlier than every task's terminal time. -/
theorem c1_scheduler_pacing (wallets : List Wallet) (cfg : ExecConfig)
    (tp : Int) (envs : Nat → ExecEnv) (durs : Nat → Rat)
    (hw : wallets ≠ []) (htp : 0 < tp) :
    ∃ r : DistRun, distribute_calls wallets true cfg tp envs durs = .ok r
      ∧ r.delay = (tp : Rat) / (wallets.length : Rat)
      ∧ r.launches.map (fun l => l.offset)
          = (List.range wallets.length).map (fun k : Nat => (k : Rat) * r.delay)
      ∧ (r.launches.map (fun l => l.offset)).Pairwise (· ≤ ·)
      ∧ (∀ (envs' : Nat → ExecEnv) (durs' : Nat → Rat), ∃ r' : DistRun,
          distribute_calls wallets true cfg tp envs' durs' = .ok r'
            ∧ r'.launches.map (fun l => l.offset)
                = r.launches.map (fun l => l.offset))
      ∧ ((∀ l ∈ r.launches, ∀ m, l.trace.outcome ≠ .raised m) →
          r.raisedMsg = none ∧ ∀ l ∈ r.launches, l.finish ≤ r.endTime) := by
  have hcond : ¬ (wallets = [] ∨ (true : Bool) = false ∨ tp = 0) := by
    push_neg
    exact ⟨hw, by simp, by omega⟩
  have hoff : ∀ (envs0 : Nat → ExecEnv) (durs0 : Nat → Rat),
      (launchLoop cfg envs0 durs0 ((tp : Rat) / (wallets.length : Rat)) 0 0
          wallets).map (fun l => l.offset)
        = (List.range wallets.length).map
            (fun k : Nat => (k : Rat) * ((tp : Rat) / (wallets.length : Rat))) := by
    intro envs0 durs0
    rw [launchLoop_offsets]
    exact List.map_congr_left fun k _ => by ring
  refine ⟨{ delay := (tp : Rat) / (wallets.length : Rat),
            launches := launchLoop cfg envs durs
              ((tp : Rat) / (wallets.length : Rat)) 0 0 wallets },
    ?_, rfl, hoff envs durs, ?_, ?_, ?_⟩
  · simp only [distribute_calls]
    rw [if_neg hcond]
  · rw [hoff envs durs]
    have hd : (0 : Rat) ≤ (tp : Rat) / (wallets.length : Rat) :=
      div_nonneg (by exact_mod_cast htp.le) (Nat.cast_nonneg _)
    refine List.Pairwise.map _ (fun a b hab => ?_) (List.sorted_lt_range _)
    have hab' : (a : Rat) ≤ (b : Rat) := by exact_mod_cast hab.le
    exact mul_le_mul_of_nonneg_right hab' hd
  · intro envs' durs'
    refine ⟨{ delay := (tp : Rat) / (wallets.length : Rat),
              launches := launchLoop cfg envs' durs'
                ((tp : Rat) / (wallets.length : Rat)) 0 0 wallets },
      ?_, ?_⟩
    · simp only [distribute_calls]
      rw [if_neg hcond]
    · rw [hoff envs' durs', hoff envs durs]
  · intro hnr
    exact ⟨raisedMsg_eq_none _ hnr, finish_le_endTime _⟩

/-- C1 witness at a concrete input. -/
theorem c1_scheduler_pacing_witness :
    ∃ r : DistRun,
      distribute_calls [wFix] true cfgFix 10 (fun _ => envFix) (fun _ => 1)
          = .ok r
        ∧ r.delay = 10 := by
  obtain ⟨r, hok, hdelay, -⟩ :=
    c1_scheduler_pacing [wFix] cfgFix 10 (fun _ => envFix) (fun _ => 1)
      (by simp) (by norm_num)
  refine ⟨r, hok, ?_⟩
  rw [hdelay]
  norm_num

/-- C10: `distribute_calls` raises `ValueError` on an empty wallet list,
a missing execution config or a zero time period, before computing the
pacing delay; in every other case it proceeds and the divisor of
`delay = time_period / len(wallets)` is non-zero. -/
theorem c10_distribute_validation (cfg : ExecConfig)
    (envs : Nat → ExecEnv) (durs : Nat → Rat) :
    (∀ tp : Int, ∃ msg, distribute_calls [] true cfg tp envs durs = .error msg)
    ∧ (∀ (ws : List Wallet) (tp : Int), ∃ msg,
        distribute_calls ws false cfg tp envs durs = .error msg)
    ∧ (∀ ws : List Wallet, ∃ msg,
        distribute_calls ws true cfg 0 envs durs = .error msg)
    ∧ (∀ (ws : List Wallet) (tp : Int), ws ≠ [] → tp ≠ 0 →
        ws.length ≠ 0 ∧ ∃ r : DistRun,
          distribute_calls ws true cfg tp envs durs = .ok r
            ∧ r.delay = (tp : Rat) / (ws.length : Rat)) := by
  refine ⟨?_, ?_, ?_, ?_⟩
  · intro tp
    exact ⟨"Missing required values for contract call wallets, execution_config, time_period",
      by simp [distribute_calls]⟩
  · intro ws tp
    exact ⟨"Missing required values for contract call wallets, execution_config, time_period",
      by simp [distribute_calls]⟩
  · intro ws
    exact ⟨"Missing required values for contract call wallets, execution_config, time_period",
      by simp [distribute_calls]⟩
  · intro ws tp hws htp
    have hcond : ¬ (ws = [] ∨ (true : Bool) = false ∨ tp = 0) := by
      push_neg
      exact ⟨hws, by simp, htp⟩
    refine ⟨fun h => hws (List.length_eq_zero.mp h),
      ⟨{ delay := (tp : Rat) / (ws.length : Rat),
         launches := launchLoop cfg envs durs
           ((tp : Rat) / (ws.length : Rat)) 0 0 ws }, ?_, rfl⟩⟩
    simp only [distribute_calls]
    rw [if_neg hcond]

/-- C10 witness at concrete inputs. -/
theorem c10_distribute_validation_witness :
    [wFix].length ≠ 0 ∧ ∃ r : DistRun,
      distribute_calls [wFix] true cfgFix 60 (fun _ => envFix) (fun _ => 1)
          = .ok r
        ∧ r.delay = ((60 : Int) : Rat) / (([wFix].length : Nat) : Rat) :=
  (c10_distribute_validation cfgFix (fun _ => envFix) (fun _ => 1)).2.2.2
    [wFix] 60 (by simp) (by norm_num)

/-- C4: within one task (valid inputs, non-master wallet, present
chain), the funding transfer is invoked iff the wallet balance B is
below the transaction cost C = gas * gas_price; when invoked the amount
sent is exactly C; and if the funding transfer returns no transaction
hash the task terminates in failure without attempting the contract
call. -/
theorem c4_funding_trigger (w : Wallet) (cfg : ExecConfig) (env : ExecEnv)
    (hv : missingExecValues w cfg = false)
    (hm : isMasterName w.name = false)
    (hc : cfg.chainSlug ≠ "") :
    ((execute_contract_call w cfg env).fundingAttempted = true
        ↔ env.balance < (cfg.gas : Rat) * (cfg.gas_price : Rat))
    ∧ ((execute_contract_call w cfg env).fundingAttempted = true →
        (execute_contract_call w cfg env).fundingAmount
          = some (cfg.gas * cfg.gas_price))
    ∧ (env.balance < (cfg.gas : Rat) * (cfg.gas_price : Rat) →
        cfg.master_pk ≠ "" → env.fundTx = none →
        (execute_contract_call w cfg env).outcome = .fundingFailed
          ∧ (execute_contract_call w cfg env).callAttempted = false
          ∧ (execute_contract_call w cfg env).methodSent = none) := by
  have hc' : (cfg.chainSlug == "") = false := by
    simp only [beq_eq_false_iff_ne, ne_eq]
    exact hc
  unfold execute_contract_call callPhase
  simp only [Nat.cast_mul]
  rcases env.fundTx with _ | f <;> rcases env.callTx with _ | t <;>
    split_ifs <;> simp_all

/-- C4 witness at a concrete input. -/
theorem c4_funding_trigger_witness :
    ((execute_contract_call wFix cfgFix envFix).fundingAttempted = true
        ↔ envFix.balance < (cfgFix.gas : Rat) * (cfgFix.gas_price : Rat))
    ∧ ((execute_contract_call wFix cfgFix envFix).fundingAttempted = true →
        (execute_contract_call wFix cfgFix envFix).fundingAmount
          = some (cfgFix.gas * cfgFix.gas_price))
    ∧ (envFix.balance < (cfgFix.gas : Rat) * (cfgFix.gas_price : Rat) →
        cfgFix.master_pk ≠ "" → envFix.fundTx = none →
        (execute_contract_call wFix cfgFix envFix).outcome = .fundingFailed
          ∧ (execute_contract_call wFix cfgFix envFix).callAttempted = false
          ∧ (execute_contract_call wFix cfgFix envFix).methodSent = none) :=
  c4_funding_trigger wFix cfgFix envFix (by decide) (by decide) (by decide)

/-- C3 counterexample: on a second run of a completed campaign the
top-up path hands the master wallet itself to the scheduler, so the
master wallet is not always absent from the execution wallet set. -/
theorem c3_master_in_scheduled_set :
    c3master ∈ (init_hydralisk "hydra_master" c3args id true).scheduledWallets
      ∧ isMasterName c3master.name = true := by
  constructor
  · decide
  · decide

/-- C3 (amended): the master wallet can appear in the wallet set handed
to the scheduler (the wallet top-up path re-adds it), but the per-wallet
protocol rejects any wallet named `master` or ending in `_master` as a
logged skip that performs no balance check, no funding transfer and no
contract call, writes no log line, and raises nothing (so sibling tasks
are unaffected). -/
theorem c3_master_guard (w : Wallet) (cfg : ExecConfig) (env : ExecEnv)
    (hv : missingExecValues w cfg = false)
    (hm : isMasterName w.name = true) :
    (execute_contract_call w cfg env).outcome = .skippedMaster
      ∧ (execute_contract_call w cfg env).balanceChecked = false
      ∧ (execute_contract_call w cfg env).fundingAttempted = false
      ∧ (execute_contract_call w cfg env).callAttempted = false
      ∧ (execute_contract_call w cfg env).logLine = none
      ∧ ∀ m, (execute_contract_call w cfg env).outcome ≠ .raised m := by
  unfold execute_contract_call
  simp [hv, hm]

/-- C3 witness at a concrete master-named wallet. -/
theorem c3_master_guard_witness :
    (execute_contract_call wMasterFix cfgFix envFix).outcome = .skippedMaster
      ∧ (execute_contract_call wMasterFix cfgFix envFix).balanceChecked = false
      ∧ (execute_contract_call wMasterFix cfgFix envFix).fundingAttempted = false
      ∧ (execute_contract_call wMasterFix cfgFix envFix).callAttempted = false
      ∧ (execute_contract_call wMasterFix cfgFix envFix).logLine = none
      ∧ ∀ m, (execute_contract_call wMasterFix cfgFix envFix).outcome
          ≠ .raised m :=
  c3_master_guard wMasterFix cfgFix envFix (by decide) (by decide)

/-- C2 (code evaluation at the failing input): second run of a campaign
whose single execution wallet is already in the unchanged log — the
classification loop skips it, but the top-up branch re-adds every prefix
wallet returned by `create_wallet`, so the logged wallet is handed to
the scheduler again. -/
theorem c2_rescheduled_logged_wallet :
    init_hydralisk "spore_master" c2args id true
        = InitResult.run [c2master, c2w1] 3600
      ∧ c2w1 ∈ [c2master, c2w1]
      ∧ c2w1.address ∈ c2args.executed := by
  refine ⟨?_, ?_, ?_⟩
  · decide
  · decide
  · decide

/-- C8: if the master wallet is absent (so it has to be newly created),
`init_hydralisk` halts with a funding instruction naming the new master
address and the amount `wallet_limit * gas * gas_price` in wei, and the
scheduler is never invoked; if the resolved master wallet's balance is
zero it halts with a funding instruction naming the master address and
the chain, and the scheduler is never invoked. -/
theorem c8_master_validation (masterName : String) (a : InitArgs)
    (sh : List Wallet → List Wallet) (logDir : Bool) :
    ((∀ w ∈ a.wallets, w.name ≠ masterName) →
      init_hydralisk masterName a sh logDir
          = .missingMaster masterName a.newMasterAddress
              (a.wallet_limit * a.gas * a.gas_price) a.symbol
        ∧ ∀ ws tp, init_hydralisk masterName a sh logDir ≠ .run ws tp)
    ∧ (∀ m, (initFilter masterName a.executed a.wallets).1 = some m →
        a.masterBalance = 0 →
        init_hydralisk masterName a sh logDir
            = .zeroBalanceMaster masterName m.address a.chainName
          ∧ ∀ ws tp, init_hydralisk masterName a sh logDir ≠ .run ws tp) := by
  constructor
  · intro h
    have hnone : (initFilter masterName a.executed a.wallets).1 = none :=
      (initFilter_fst_none_iff _ _ _).mpr h
    have he : init_hydralisk masterName a sh logDir
        = .missingMaster masterName a.newMasterAddress
            (a.wallet_limit * a.gas * a.gas_price) a.symbol := by
      simp only [init_hydralisk]
      rw [hnone]
    refine ⟨he, fun ws tp hrun => ?_⟩
    rw [he] at hrun
    exact absurd hrun (by simp)
  · intro m hm hbal
    have he : init_hydralisk masterName a sh logDir
        = .zeroBalanceMaster masterName m.address a.chainName := by
      simp only [init_hydralisk]
      rw [hm]
      simp [hbal]
    refine ⟨he, fun ws tp hrun => ?_⟩
    rw [he] at hrun
    exact absurd hrun (by simp)

/-- C8 witness at concrete inputs, covering both halt branches. -/
theorem c8_master_validation_witness :
    (init_hydralisk "zerg_master" c8args id true
        = .missingMaster "zerg_master" c8args.newMasterAddress
            (c8args.wallet_limit * c8args.gas * c8args.gas_price) c8args.symbol
      ∧ ∀ ws tp, init_hydralisk "zerg_master" c8args id true ≠ .run ws tp)
    ∧ (init_hydralisk "spore_master" c8argsZero id true
        = .zeroBalanceMaster "spore_master" c2master.address
            c8argsZero.chainName
      ∧ ∀ ws tp, init_hydralisk "spore_master" c8argsZero id true
          ≠ .run ws tp) := by
  constructor
  · exact (c8_master_validation "zerg_master" c8args id true).1 (by decide)
  · exact (c8_master_validation "spore_master" c8argsZero id true).2
      c2master (by decide) (by decide)

/-- C7 counterexample: a wallet with a falsy private key makes
`execute_contract_call` raise `ValueError` past the task boundary, and
`asyncio.gather` re-raises it, aborting the run. -/
theorem c7_bad_input_raises :
    (execute_contract_call wBadFix cfgFix envFix).outcome
        = .raised "Missing required values for contract call"
      ∧ ((distribute_calls [wBadFix] true cfgFix 60 (fun _ => envFix)
            (fun _ => 1)).toOption.map DistRun.raisedMsg)
        = some (some "Missing required values for contract call") := by
  constructor
  · decide
  · decide

/-- C7 (amended): external-call failures (funding transfer or contract
call returning no hash) and the master-wallet guard are converted to a
log entry plus a failure return and never raise, but missing required
inputs (falsy wallet key/address or contract parameters, falsy chain, or
falsy master key when funding is needed) raise a `ValueError` out of the
task, which `asyncio.gather` re-raises, aborting the run; when no task
raises, the gather re-raises nothing, and each task's trace depends only
on its own wallet and oracle, so one task's failure never alters a
sibling task. -/
theorem c7_failure_conversion :
    (∀ (w : Wallet) (cfg : ExecConfig) (env : ExecEnv),
        missingExecValues w cfg = false → cfg.chainSlug ≠ "" →
        (cfg.master_pk ≠ ""
            ∨ ¬ env.balance < (cfg.gas : Rat) * (cfg.gas_price : Rat)) →
        ∀ m, (execute_contract_call w cfg env).outcome ≠ .raised m)
    ∧ (∀ (wallets : List Wallet) (cfg : ExecConfig) (tp : Int)
          (envs : Nat → ExecEnv) (durs : Nat → Rat) (r : DistRun),
        distribute_calls wallets true cfg tp envs durs = .ok r →
        (∀ l ∈ r.launches, ∀ m, l.trace.outcome ≠ .raised m) →
        r.raisedMsg = none
          ∧ ∀ l ∈ r.launches, ∃ k,
              l.trace = execute_contract_call l.wallet cfg (envs k)) := by
  constructor
  · intro w cfg env hv hc hpk m
    have hc' : (cfg.chainSlug == "") = false := by
      simp only [beq_eq_false_iff_ne, ne_eq]
      exact hc
    unfold execute_contract_call callPhase
    simp only [Nat.cast_mul]
    rcases env.fundTx with _ | f <;> rcases env.callTx with _ | t <;>
      split_ifs <;> simp_all
  · intro wallets cfg tp envs durs r hok hnr
    refine ⟨raisedMsg_eq_none r hnr, ?_⟩
    intro l hl
    unfold distribute_calls at hok
    by_cases hcond : wallets = [] ∨ (true : Bool) = false ∨ tp = 0
    · rw [if_pos hcond] at hok
      exact absurd hok (by simp)
    · rw [if_neg hcond] at hok
      have hr := (Except.ok.inj hok).symm
      subst hr
      obtain ⟨k, hk, -⟩ :=
        launchLoop_trace_mem cfg envs durs _ wallets 0 0 l hl
      exact ⟨k, hk⟩

/-- C7 witness: a concrete run in which every task-local failure mode is
a return, not a raise. -/
theorem c7_failure_conversion_witness :
    (∀ m, (execute_contract_call wFix cfgFix envFix).outcome
        ≠ ExecOutcome.raised m)
    ∧ ∃ r : DistRun,
        distribute_calls [wFix] true cfgFix 60 (fun _ => envFix) (fun _ => 1)
            = .ok r
          ∧ r.raisedMsg = none := by
  have hcond : ¬ ([wFix] = [] ∨ (true : Bool) = false ∨ (60 : Int) = 0) := by
    simp
  have hok : distribute_calls [wFix] true cfgFix 60 (fun _ => envFix)
      (fun _ => 1)
      = .ok { delay := ((60 : Int) : Rat) / (([wFix].length : Nat) : Rat),
              launches := launchLoop cfgFix (fun _ => envFix) (fun _ => 1)
                (((60 : Int) : Rat) / (([wFix].length : Nat) : Rat)) 0 0
                [wFix] } := by
    simp only [distribute_calls]
    rw [if_neg hcond]
  constructor
  · exact c7_failure_conversion.1 wFix cfgFix envFix (by decide) (by decide)
      (Or.inl (by decide))
  · refine ⟨_, hok, ?_⟩
    refine (c7_failure_conversion.2 [wFix] cfgFix 60 (fun _ => envFix)
      (fun _ => 1) _ hok ?_).1
    intro l hl m
    have h1 : l ∈ launchLoop cfgFix (fun _ => envFix) (fun _ => 1)
        (((60 : Int) : Rat) / (([wFix].length : Nat) : Rat)) 0 0 [wFix] := hl
    simp only [launchLoop, List.mem_singleton] at h1
    have hlw : l.trace.outcome = ExecOutcome.success := by
      rw [h1]
      decide
    rw [hlw]
    simp

/-- C6: every record appended by the recording step (a line
`,<wallet_address>,<tx_hash>,<timestamp>` written by `recordLine`, the
same function used in `execute_contract_call`) is recovered by
`get_finished_wallets`, which extracts the second comma-separated field
of each comma-containing line; the one-line file of the spec's example
yields exactly the address `0xABC`; a missing file yields the empty
set. -/
theorem c6_log_round_trip (records : List CompletionRecord)
    (hclean : ∀ r ∈ records, '\n' ∉ r.address.data ∧ ',' ∉ r.address.data
        ∧ '\n' ∉ r.txHash.data ∧ '\n' ∉ r.ts.data) :
    get_finished_wallets (some (logFile records))
        = records.map (fun r => r.address)
      ∧ get_finished_wallets (some ",0xABC,0xhash1,2024-01-01 00:00:00")
        = ["0xABC"]
      ∧ get_finished_wallets none = [] := by
  refine ⟨get_finished_wallets_logFile records hclean, ?_, rfl⟩
  decide

/-- C6 witness at a concrete record list. -/
theorem c6_log_round_trip_witness :
    get_finished_wallets (some (logFile [recFix]))
        = [recFix].map (fun r => r.address)
      ∧ get_finished_wallets (some ",0xABC,0xhash1,2024-01-01 00:00:00")
        = ["0xABC"]
      ∧ get_finished_wallets none = [] :=
  c6_log_round_trip [recFix] (by decide)

/-- C9: within one task invocation, every occurrence of `{uuid}` in the
method template is replaced by the same one freshly drawn identifier
(one draw per invocation, not per occurrence), and every occurrence of
`{rnd}` by the same one drawn integer; distinct invocations use their
own independently supplied oracle values `u` and `r`. -/
theorem c9_single_draw_per_invocation (a b c : List Char) (u : String)
    (r : Nat) (m m2 : String)
    (ha : '{' ∉ a) (hb : '{' ∉ b) (hc : '{' ∉ c) (hu : '{' ∉ u.data)
    (h1 : m.data = a ++ patUuid ++ b ++ patUuid ++ c)
    (h2 : m2.data = a ++ patRnd ++ b ++ patRnd ++ c)
    (hnu : ¬ patUuid <:+: m2.data) :
    (substMacros m u r).data = a ++ u.data ++ b ++ u.data ++ c
      ∧ (substMacros m2 u r).data
          = a ++ (Nat.repr r).data ++ b ++ (Nat.repr r).data ++ c := by
  constructor
  · have hrepl : replaceAll m.data patUuid u.data
        = a ++ (u.data ++ (b ++ (u.data ++ c))) := by
      have hshape : m.data = a ++ patUuid ++ (b ++ patUuid ++ c) := by
        rw [h1]
        simp [List.append_assoc]
      rw [hshape]
      have hpU : patUuid = '{' :: ['u', 'u', 'i', 'd', '}'] := rfl
      rw [hpU]
      rw [replaceAll_append_pat u.data _ ha]
      rw [replaceAll_append_pat u.data _ hb]
      rw [replaceAll_head_not_mem u.data hc]
      simp [List.append_assoc]
    have hin : patUuid <:+: m.data := by
      refine ⟨a, b ++ patUuid ++ c, ?_⟩
      rw [h1]
      simp [List.append_assoc]
    have hnobrace : '{' ∉ replaceAll m.data patUuid u.data := by
      rw [hrepl]
      intro hmem
      simp only [List.mem_append] at hmem
      rcases hmem with h | h | h | h | h
      · exact ha h
      · exact hu h
      · exact hb h
      · exact hu h
      · exact hc h
    have hnr : ¬ patRnd <:+: replaceAll m.data patUuid u.data := fun hinf =>
      hnobrace ( List.IsInfix.subset hinf (by decide))
    simp only [substMacros]
    rw [if_pos hin]
    simp only [asString_data]
    rw [if_neg hnr]
    simp only [asString_data]
    rw [hrepl]
    simp [List.append_assoc]
  · have hrepl2 : replaceAll m2.data patRnd (Nat.repr r).data
        = a ++ ((Nat.repr r).data ++ (b ++ ((Nat.repr r).data ++ c))) := by
      have hshape : m2.data = a ++ patRnd ++ (b ++ patRnd ++ c) := by
        rw [h2]
        simp [List.append_assoc]
      rw [hshape]
      have hpR : patRnd = '{' :: ['r', 'n', 'd', '}'] := rfl
      rw [hpR]
      rw [replaceAll_append_pat (Nat.repr r).data _ ha]
      rw [replaceAll_append_pat (Nat.repr r).data _ hb]
      rw [replaceAll_head_not_mem (Nat.repr r).data hc]
      simp [List.append_assoc]
    have hin2 : patRnd <:+: m2.data := by
      refine ⟨a, b ++ patRnd ++ c, ?_⟩
      rw [h2]
      simp [List.append_assoc]
    simp only [substMacros]
    rw [if_neg hnu]
    rw [if_pos hin2]
    simp only [asString_data]
    rw [hrepl2]
    simp [List.append_assoc]

/-- C9 witness at concrete two-occurrence templates. -/
theorem c9_single_draw_witness :
    (substMacros "f({uuid},{uuid})" uuidFix 7).data
        = "f(".data ++ uuidFix.data ++ ",".data ++ uuidFix.data ++ ")".data
      ∧ (substMacros "f({rnd},{rnd})" uuidFix 7).data
        = "f(".data ++ (Nat.repr 7).data ++ ",".data ++ (Nat.repr 7).data
            ++ ")".data :=
  c9_single_draw_per_invocation "f(".data ",".data ")".data uuidFix 7
    "f({uuid},{uuid})" "f({rnd},{rnd})" (by decide) (by decide) (by decide)
    (by decide) (by decide) (by decide) (by decide)

/-- C5: whenever the task reaches the contract call, the method string
it sends is the macro-substituted template: it contains no remaining
literal `{uuid}` token and no remaining literal `{rnd}` token; `{uuid}`
occurrences were replaced by the freshly drawn identifier and `{rnd}`
occurrences by the decimal string of the drawn integer, which lies in
the closed interval [0, 10000] (the contract of
`random.randint(0, 10000)`, carried here as the oracle bound). -/
theorem c5_macro_substitution (w : Wallet) (cfg : ExecConfig) (env : ExecEnv)
    (hA : ∀ c ∈ env.uuidVal.data, c ∈ uuidAlphabet)
    (hlen : 2 ≤ env.uuidVal.data.length)
    (hr : env.rndVal ≤ 10000) :
    ∀ s, (execute_contract_call w cfg env).methodSent = some s →
      s = substMacros cfg.method env.uuidVal env.rndVal
        ∧ ¬ patUuid <:+: s.data ∧ ¬ patRnd <:+: s.data
        ∧ env.rndVal ≤ 10000 := by
  intro s hs
  rcases methodSent_spec w cfg env with h | h
  · rw [h] at hs
    exact absurd hs (by simp)
  · rw [h] at hs
    have heq : substMacros cfg.method env.uuidVal env.rndVal = s :=
      Option.some.inj hs
    subst heq
    obtain ⟨h1, h2⟩ :=
      substMacros_no_tokens cfg.method env.uuidVal env.rndVal hA hlen
    exact ⟨rfl, h1, h2, hr⟩

/-- C5 witness at a concrete task that reaches the contract call. -/
theorem c5_macro_substitution_witness :
    substMacros cfgFix.method envFix.uuidVal envFix.rndVal
        = substMacros cfgFix.method envFix.uuidVal envFix.rndVal
      ∧ ¬ patUuid <:+:
          (substMacros cfgFix.method envFix.uuidVal envFix.rndVal).data
      ∧ ¬ patRnd <:+:
          (substMacros cfgFix.method envFix.uuidVal envFix.rndVal).data
      ∧ envFix.rndVal ≤ 10000 :=
  c5_macro_substitution wFix cfgFix envFix (by decide) (by decide) (by decide)
    (substMacros cfgFix.method envFix.uuidVal envFix.rndVal) rfl

end Hydralisk
